import Mathlib

/-!
# Configuration synthesis of `@nuxtjs/tailwindcss` (`dist/module.mjs`)

A shallow embedding of the configuration merger (`configMerger`, lines 15-31), of the
fragment fold of `setup` (lines 285-303) and of the template synthesiser
(`createTemplates`, lines 120-176), followed by the properties established about them.

JavaScript values are embedded as the tree type `Val`; numbers are integers.  A JavaScript
object is an association list in enumeration order and `undefined` is `none : Option Val`.
A callable is a tag `fn id` together with an interpretation `call : Nat → Val → Val` that
every function evaluating callables receives.  A thrown `TypeError` is `none` (`threw` for
the merger callback).

Two imported functions are not defined in `dist/module.mjs`: `createDefu` of the package
`defu`, modelled from section 4.2 of the specification, and `join` of the package `pathe`,
which the template synthesiser takes as a parameter.
-/

namespace TailwindModule

/-! ## Values -/

/-- JavaScript values that occur in configuration trees: JSON values plus callables. -/
inductive Val where
  | null : Val
  | bool (b : Bool) : Val
  | num (n : Int) : Val
  | str (s : String) : Val
  | arr (xs : List Val) : Val
  | obj (fs : List (String × Val)) : Val
  | fn (id : Nat) : Val

/-- A JavaScript object: its own enumerable properties in enumeration order. -/
abbrev Obj := List (String × Val)

/-- Property read `obj[key]`; `none` is `undefined`. -/
def getProp : Obj → String → Option Val
  | [], _ => none
  | (k, v) :: rest, key => if k = key then some v else getProp rest key

/-- Property write `obj[key] = v`: an existing property keeps its position, a new one is
appended. -/
def setProp : Obj → String → Val → Obj
  | [], key, v => [(key, v)]
  | (k, w) :: rest, key, v => if k = key then (k, v) :: rest else (k, w) :: setProp rest key v

/-- The keys of an object, `Object.keys`. -/
def keys (o : Obj) : List String := o.map Prod.fst

/-- Line 16: `typeof value === "object" && !Array.isArray(value)`.  `null` passes. -/
def isJSObject : Option Val → Bool
  | some Val.null => true
  | some (Val.obj _) => true
  | _ => false

/-- The built-in `Array.isArray`. -/
def isArray : Option Val → Bool
  | some (Val.arr _) => true
  | _ => false

/-- The elements produced by `...(x || [])`: a falsy `x` gives nothing, a list its
elements, a string its characters; any other truthy value is not iterable (`none`). -/
def spreadOrEmpty : Option Val → Option (List Val)
  | none => some []
  | some Val.null => some []
  | some (Val.bool b) => if b then none else some []
  | some (Val.num n) => if n = 0 then some [] else none
  | some (Val.str s) => some (s.data.map fun c => Val.str (String.singleton c))
  | some (Val.arr xs) => some xs
  | some (Val.obj _) => none
  | some (Val.fn _) => none

/-! ## The merger (lines 17-31) -/

/-- Outcome of the callback handed to `createDefu`. -/
inductive Handled where
  /-- The callback returned `undefined`: the generic rule applies. -/
  | declined : Handled
  /-- The callback returned `true` after updating the accumulator object. -/
  | took (o : Obj) : Handled
  /-- The callback threw a `TypeError`. -/
  | threw : Handled

/-- Lines 18-26, the body of `if (key === "content")`: `none` when neither branch is
entered. -/
def contentRule (o : Obj) (key : String) (value : Val) : Option Handled :=
  match getProp o key, value with
  | some (Val.obj c), Val.arr vs =>
    -- obj[key]["files"] = [...obj[key]["files"] || [], ...value]
    match spreadOrEmpty (getProp c "files") with
    | some fs => some (Handled.took (setProp o key (Val.obj (setProp c "files" (Val.arr (fs ++ vs))))))
    | none => some Handled.threw
  | some Val.null, Val.arr _ => some Handled.threw
  | some (Val.arr xs), Val.obj c =>
    -- obj[key] = { ...value, files: [...obj[key], ...value.files || []] }
    match spreadOrEmpty (getProp c "files") with
    | some fs => some (Handled.took (setProp o key (Val.obj (setProp c "files" (Val.arr (xs ++ fs))))))
    | none => some Handled.threw
  | some (Val.arr _), Val.null => some Handled.threw
  | _, _ => none

/-- Lines 27-30: a callable facing a list is applied to the list. -/
def reducerRule (call : Nat → Val → Val) (o : Obj) (key : String) (value : Val) : Handled :=
  match getProp o key, value with
  | some (Val.arr xs), Val.fn f => Handled.took (setProp o key (call f (Val.arr xs)))
  | _, _ => Handled.declined

/-- Lines 17-31: the callback `(obj, key, value) => ...` given to `createDefu`. -/
def mergerCallback (call : Nat → Val → Val) (o : Obj) (key : String) (value : Val) : Handled :=
  match (if key = "content" then contentRule o key value else none) with
  | some h => h
  | none => reducerRule call o key value

mutual
/-- Modelled from the spec: `createDefu` of the package `defu` (imported on line 7; its
source is not part of `dist/module.mjs`).  Section 4.2: at every key of the overriding
tree the special rules (the callback) are evaluated before the generic rule.  The first
argument is the overriding tree, the second the base; the accumulator starts as a copy of
the base. -/
def createDefu (merger : Obj → String → Val → Handled) : List (String × Val) → Obj → Option Obj
  | [], acc => some acc
  | (k, v) :: rest, acc =>
    match merger acc k v with
    | Handled.threw => none
    | Handled.took acc1 => createDefu merger rest acc1
    | Handled.declined =>
      match genericRule merger v (getProp acc k) with
      | none => none
      | some w => createDefu merger rest (setProp acc k w)
/-- Modelled from the spec: the generic rule of section 4.2, rule 3: if both values are
plain mappings, recurse; else the override wins. -/
def genericRule (merger : Obj → String → Val → Handled) : Val → Option Val → Option Val
  | Val.obj o, some (Val.obj b) =>
    match createDefu merger o b with
    | none => none
    | some m => some (Val.obj m)
  | v, _ => some v
end

/-- Line 17: `const configMerger = createDefu(...)`; `configMerger(override, base)`. -/
def configMerger (call : Nat → Val → Val) (override base : Obj) : Option Obj :=
  createDefu (mergerCallback call) override base

/-- The spec's `merge(base, override)`, implemented as `configMerger(override, base)`. -/
def merge (call : Nat → Val → Val) (base override : Obj) : Option Obj :=
  configMerger call override base

/-! ## Rightmost-wins deep merge, as the specification words it -/

/-- Whether `key` is absent from `o`. -/
def lacks (o : Obj) (key : String) : Bool := (getProp o key).isNone

mutual
/-- The value of a key present on both sides: two plain mappings are merged recursively,
for every other pair the overriding value stands. -/
def deepMergeVal : Val → Val → Val
  | Val.obj a, Val.obj b => Val.obj (deepMergeKeep a b ++ b.filter fun e => lacks a e.1)
  | _, b => b
/-- The keys of the base, in place: a key the override lacks keeps its value. -/
def deepMergeKeep : List (String × Val) → Obj → Obj
  | [], _ => []
  | (k, a) :: rest, B =>
    (k, match getProp B k with
        | none => a
        | some b => deepMergeVal a b) :: deepMergeKeep rest B
end

/-- Rightmost-wins deep merge of `base` and `override`: the keys of the base followed by
the keys only the override has. -/
def deepMerge (base override : Obj) : Obj :=
  deepMergeKeep base override ++ override.filter fun e => lacks base e.1

mutual
/-- No object below has a repeated key (always so for JavaScript objects). -/
def distinctVal : Val → Bool
  | Val.obj fs => distinctKeys fs
  | _ => true
/-- No repeated key in this object nor in the objects it holds. -/
def distinctKeys : List (String × Val) → Bool
  | [] => true
  | (k, v) :: rest => lacks rest k && distinctVal v && distinctKeys rest
end

mutual
/-- A base value and an overriding value that no special rule applies to. -/
def genericVal : Val → Val → Bool
  | Val.obj a, Val.obj b => genericOnly a b
  | Val.arr _, Val.fn _ => false
  | _, _ => true
/-- No key is `content` on both sides and no overriding callable faces a list, here and
wherever two mappings meet below. -/
def genericOnly : List (String × Val) → Obj → Bool
  | [], _ => true
  | (k, a) :: rest, B =>
    (match getProp B k with
     | none => true
     | some b => k != "content" && genericVal a b) && genericOnly rest B
end

/-- Top-level keys are pairwise distinct. -/
def uniqKeys : Obj → Bool
  | [] => true
  | (k, _) :: rest => lacks rest k && uniqKeys rest

/-- What the loop of `createDefu` needs of the accumulator against the pending entries. -/
def Aligned (acc B : Obj) : Prop :=
  ∀ k v b, getProp B k = some v → getProp acc k = some b →
    k ≠ "content" ∧ genericVal b v = true ∧ distinctVal b = true

/-! ## The fragment fold of `setup` (lines 299-303) -/

/-- Lines 299-300: `configs.reduce((prev, curr) => configMerger(curr, prev), seed)`. -/
def reduceConfigs (call : Nat → Val → Val) : List Obj → Obj → Option Obj
  | [], prev => some prev
  | curr :: rest, prev =>
    match configMerger call curr prev with
    | none => none
    | some next => reduceConfigs call rest next

/-- Lines 299-303: the loaded fragments folded over the seed
`configMerger(moduleOptions.config, { content: contentPaths })`. -/
def tailwindConfig (call : Nat → Val → Val) (configs : List Obj) (userConfig : Obj)
    (contentPaths : List Val) : Option Obj :=
  match configMerger call userConfig [("content", Val.arr contentPaths)] with
  | none => none
  | some seed => reduceConfigs call configs seed

/-- A number, a string or a boolean. -/
def isScalar : Val → Bool
  | Val.bool _ => true
  | Val.num _ => true
  | Val.str _ => true
  | _ => false

/-- The last element of a non-empty list given by head and tail. -/
def lastOf : Val → List Val → Val
  | s, [] => s
  | _, t :: ts => lastOf t ts

/-- A `content` value that is an object carrying a `files` list. -/
def isFilesObject : Option Val → Bool
  | some (Val.obj c) => isArray (getProp c "files")
  | _ => false

/-- The `content` of a configuration is an object carrying a `files` list. -/
def hasFilesContent (o : Obj) : Bool := isFilesObject (getProp o "content")

/-- The `content` of a configuration is absent, a bare list, or an object carrying a
`files` list. -/
def contentShaped (o : Obj) : Bool :=
  match getProp o "content" with
  | none => true
  | some (Val.arr _) => true
  | some v => isFilesObject (some v)

/-- A list or an object carrying a `files` list. -/
def listOrFiles (v : Option Val) : Bool := isArray v || isFilesObject v

/-! ## Text helpers -/

/-- The built-in `Array.prototype.join` on strings. -/
def joinWith (sep : String) : List String → String
  | [] => ""
  | [a] => a
  | a :: b :: rest => a ++ sep ++ joinWith sep (b :: rest)

/-- Line 15: `/^[0-9a-z]+$/i`, one or more ASCII letters or digits and nothing else. -/
def NON_ALPHANUMERIC_RE (s : String) : Bool :=
  !s.data.isEmpty && s.data.all Char.isAlphanum

/-- The escape `JSON.stringify` writes for one character of a string. -/
def quoteChar (c : Char) : String :=
  if c.toNat = 34 then String.mk [Char.ofNat 92, Char.ofNat 34]
  else if c.toNat = 92 then String.mk [Char.ofNat 92, Char.ofNat 92]
  else if c.toNat = 8 then String.mk [Char.ofNat 92, Char.ofNat 98]
  else if c.toNat = 9 then String.mk [Char.ofNat 92, Char.ofNat 116]
  else if c.toNat = 10 then String.mk [Char.ofNat 92, Char.ofNat 110]
  else if c.toNat = 12 then String.mk [Char.ofNat 92, Char.ofNat 102]
  else if c.toNat = 13 then String.mk [Char.ofNat 92, Char.ofNat 114]
  else if c.toNat < 32 then
    String.mk [Char.ofNat 92, Char.ofNat 117, Char.ofNat 48, Char.ofNat 48,
      Nat.digitChar (c.toNat / 16), Nat.digitChar (c.toNat % 16)]
  else String.singleton c

/-- The string literal `JSON.stringify` writes for a string. -/
def quoteJSON (s : String) : String :=
  "\"" ++ String.join (s.data.map quoteChar) ++ "\""

/-- Brackets around the serialised parts of a list or an object, `gap` being the
indentation unit and `indent` the indentation of the enclosing line. -/
def bracketed (left right gap indent : String) (parts : List String) : String :=
  match parts with
  | [] => left ++ right
  | _ =>
    if gap = "" then left ++ joinWith "," parts ++ right
    else left ++ "\n" ++ indent ++ gap ++ joinWith (",\n" ++ indent ++ gap) parts
      ++ "\n" ++ indent ++ right

mutual
/-- The built-in `JSON.stringify(value, null, gap)` at indentation `indent`; `none` is
`undefined` (a callable has no JSON text).  Numbers are integers. -/
def serialize (gap indent : String) : Val → Option String
  | Val.null => some "null"
  | Val.bool b => some (if b then "true" else "false")
  | Val.num n => some (toString n)
  | Val.str s => some (quoteJSON s)
  | Val.fn _ => none
  | Val.arr xs => some (bracketed "[" "]" gap indent (serializeElems gap (indent ++ gap) xs))
  | Val.obj fs => some (bracketed "\x7b" "\x7d" gap indent (serializeMembers gap (indent ++ gap) fs))
/-- The elements of a list; an element without JSON text is written `null`. -/
def serializeElems (gap indent : String) : List Val → List String
  | [] => []
  | v :: vs =>
    (match serialize gap indent v with
     | none => "null"
     | some s => s) :: serializeElems gap indent vs
/-- The members of an object; a member without JSON text is left out. -/
def serializeMembers (gap indent : String) : List (String × Val) → List String
  | [] => []
  | (k, v) :: rest =>
    match serialize gap indent v with
    | none => serializeMembers gap indent rest
    | some s => (quoteJSON k ++ (if gap = "" then ":" else ": ") ++ s)
        :: serializeMembers gap indent rest
end

/-- A value inside a template literal: `${JSON.stringify(v)}`, `undefined` printing as
the word. -/
def stringify (v : Option Val) : String :=
  match v with
  | none => "undefined"
  | some w =>
    match serialize "" "" w with
    | none => "undefined"
    | some s => s

/-- The text `${JSON.stringify(v, null, 2)}`. -/
def stringifyPretty (v : Val) : String :=
  match serialize "  " "" v with
  | none => "undefined"
  | some s => s

/-! ## A path join for evaluation

`join` is imported from the package `pathe` (line 1) and is not defined in
`dist/module.mjs`; the synthesiser below takes it as a parameter.  `posixJoin` is the
joining of two `/`-separated segments with `.` and `..` resolved, used where a concrete
result is evaluated. -/

/-- The pieces of a path between slashes. -/
def splitSlash : List Char → List (List Char)
  | [] => [[]]
  | c :: rest =>
    if c.toNat = 47 then [] :: splitSlash rest
    else
      match splitSlash rest with
      | [] => [[c]]
      | seg :: segs => (c :: seg) :: segs

/-- Resolution of `.` and `..`; `done` holds the segments kept so far, last first. -/
def resolveDots (absolute : Bool) : List String → List String → List String
  | done, [] => done.reverse
  | done, seg :: rest =>
    if seg = "" ∨ seg = "." then resolveDots absolute done rest
    else if seg = ".." then
      match done with
      | [] => if absolute then resolveDots absolute [] rest else resolveDots absolute [".."] rest
      | top :: below =>
        if top = ".." then resolveDots absolute (".." :: top :: below) rest
        else resolveDots absolute below rest
    else resolveDots absolute (seg :: done) rest

/-- POSIX `join(a, b)`: the non-empty arguments joined by `/`, then normalised. -/
def posixJoin (a b : String) : String :=
  let joined := joinWith "/" ([a, b].filter fun s => s != "")
  let absolute := joined.data.head? == some (Char.ofNat 47)
  let segs := resolveDots absolute [] ((splitSlash joined.data).map String.mk)
  let body := joinWith "/" segs
  if absolute then "/" ++ body else if body = "" then "." else body

/-! ## The template synthesiser (lines 120-176) -/

/-- Which branch of `createTemplates` emitted a module. -/
inductive Kind where
  | leafObject : Kind
  | leafLiteral : Kind
  | aggregator : Kind
  | root : Kind
  deriving DecidableEq

/-- One `addTemplate` call together with the declaration fragment pushed right after it.
`kind` and `path` are bookkeeping: the branch that emitted the module and the keys leading
to it (`subpath` is `path` joined by `/`; the root module has the empty path). -/
structure ModuleRecord where
  kind : Kind
  path : List String
  filename : String
  contents : String
  declaration : String
  deriving DecidableEq

/-- `validKeys` of line 130. -/
def validKeys (fs : Obj) : List String := (keys fs).filter fun i => NON_ALPHANUMERIC_RE i

/-- `invalidKeys` of line 130. -/
def invalidKeys (fs : Obj) : List String := (keys fs).filter fun i => !NON_ALPHANUMERIC_RE i

/-- Line 127: the truthiness of `Object.keys(value).find((k) => !k.match(RE))`: the first
key failing the expression is returned, and the empty string is falsy. -/
def findsUnsafeKey (fs : Obj) : Bool :=
  match (keys fs).find? fun k => !NON_ALPHANUMERIC_RE k with
  | none => false
  | some k => k != ""

/-- Lines 131-138: the module of an object value materialised as a leaf. -/
def leafObjectModule (aliasName : String) (path : List String) (value : Obj) : ModuleRecord :=
  let subpath := joinWith "/" path
  let valid := validKeys value
  let invalid := invalidKeys value
  { kind := Kind.leafObject
    path := path
    filename := "tailwind.config/" ++ subpath ++ ".mjs"
    contents :=
      joinWith "\n" (valid.map fun i => "const _" ++ i ++ " = " ++ stringify (getProp value i))
      ++ "\nconst config = \x7b "
      ++ String.join (valid.map fun i => "\"" ++ i ++ "\": _" ++ i ++ ", ")
      ++ String.join (invalid.map fun i => "\"" ++ i ++ "\": " ++ stringify (getProp value i) ++ ", ")
      ++ " \x7d\nexport \x7b config as default"
      ++ (if valid.length > 0 then ", _" else "") ++ joinWith ", _" valid ++ " \x7d"
    declaration :=
      "declare module \"" ++ aliasName ++ "/" ++ subpath ++ "\" \x7b "
      ++ String.join (valid.map fun i =>
          "export const _" ++ i ++ ": " ++ stringify (getProp value i) ++ ";")
      ++ " const defaultExport: \x7b "
      ++ String.join (valid.map fun i => "\"" ++ i ++ "\": typeof _" ++ i ++ ", ")
      ++ String.join (invalid.map fun i => "\"" ++ i ++ "\": " ++ stringify (getProp value i) ++ ", ")
      ++ " \x7d; export default defaultExport; \x7d" }

/-- Lines 140-145: the module of a value that is not an object. -/
def leafLiteralModule (aliasName : String) (path : List String) (value : Val) : ModuleRecord :=
  let subpath := joinWith "/" path
  { kind := Kind.leafLiteral
    path := path
    filename := "tailwind.config/" ++ subpath ++ ".mjs"
    contents := "export default " ++ stringifyPretty value
    declaration :=
      "declare module \"" ++ aliasName ++ "/" ++ subpath ++ "\" \x7b const defaultExport: "
      ++ stringify (some value) ++ "; export default defaultExport; \x7d" }

/-- Lines 149-157: the module re-exporting the children of `key`. -/
def aggregatorModule (join : String → String → String) (aliasName : String) (path : List String)
    (key : String) (values : List String) : ModuleRecord :=
  let subpath := joinWith "/" path
  { kind := Kind.aggregator
    path := path
    filename := "tailwind.config/" ++ subpath ++ ".mjs"
    contents :=
      joinWith "\n" (values.map fun v => "import _" ++ v ++ " from \"./" ++ key ++ "/" ++ v ++ ".mjs\"")
      ++ "\nconst config = \x7b "
      ++ joinWith ", " (values.map fun k => "\"" ++ k ++ "\": _" ++ k)
      ++ " \x7d\nexport \x7b config as default"
      ++ (if values.length > 0 then ", _" else "") ++ joinWith ", _" values ++ " \x7d"
    declaration :=
      "declare module \"" ++ aliasName ++ "/" ++ subpath ++ "\" \x7b"
      ++ String.join (values.map fun v =>
          " export const _" ++ v ++ ": typeof import(\"" ++ aliasName ++ "/"
            ++ join (key ++ "/" ++ subpath) ("../" ++ v) ++ "\")[\"default\"];")
      ++ " const defaultExport: \x7b "
      ++ joinWith ", " (values.map fun k => "\"" ++ k ++ "\": typeof _" ++ k)
      ++ " \x7d; export default defaultExport; \x7d" }

/-- Lines 162-170: the root module over the top-level keys. -/
def rootModule (join : String → String → String) (aliasName : String) (configOptions : List String) :
    ModuleRecord :=
  { kind := Kind.root
    path := []
    filename := "tailwind.config/index.mjs"
    contents :=
      joinWith "\n" (configOptions.map fun v =>
        "import " ++ v ++ " from \"#build/tailwind.config/" ++ v ++ ".mjs\"")
      ++ "\nconst config = \x7b " ++ joinWith ", " configOptions
      ++ " \x7d\nexport \x7b config as default, " ++ joinWith ", " configOptions ++ " \x7d"
    declaration :=
      "declare module \"" ++ aliasName ++ "\" \x7b"
      ++ String.join (configOptions.map fun v =>
          " export const " ++ v ++ ": typeof import(\"" ++ join aliasName v ++ "\")[\"default\"];")
      ++ " const defaultExport: \x7b "
      ++ joinWith "," (configOptions.map fun v => "\"" ++ v ++ "\": typeof " ++ v)
      ++ " \x7d; export default defaultExport; \x7d" }

mutual
/-- Lines 122-160: `populateMap(obj, path, level)`, the modules emitted for the entries of
`obj` in emission order; `none` when a `TypeError` is thrown. -/
def populateMap (join : String → String → String) (aliasName : String) (maxLevel : Nat) :
    List (String × Val) → List String → Nat → Option (List ModuleRecord)
  | [], _, _ => some []
  | (key, value) :: rest, path, level =>
    match populateEntry join aliasName maxLevel value key path level with
    | none => none
    | some ms =>
      match populateMap join aliasName maxLevel rest path level with
      | none => none
      | some more => some (ms ++ more)
/-- Lines 123-158: the body of the `forEach` callback for one entry.  A `null` value passes
`isJSObject` and `Object.keys(null)` throws, in the condition of line 127 or in line 130. -/
def populateEntry (join : String → String → String) (aliasName : String) (maxLevel : Nat) :
    Val → String → List String → Nat → Option (List ModuleRecord)
  | Val.obj fs, key, path, level =>
    if maxLevel ≤ level ∨ findsUnsafeKey fs = true then
      some [leafObjectModule aliasName (path ++ [key]) fs]
    else
      match populateMap join aliasName maxLevel fs (path ++ [key]) (level + 1) with
      | none => none
      | some ms => some (ms ++ [aggregatorModule join aliasName (path ++ [key]) key (keys fs)])
  | Val.null, _, _, _ => none
  | value, key, path, _ => some [leafLiteralModule aliasName (path ++ [key]) value]
end

/-- Lines 120-170: the modules `createTemplates(resolvedConfig, config)` registers, the
root module last; `config.alias` is `aliasName` and `config.level` is `maxLevel`. -/
def createTemplates (join : String → String → String) (aliasName : String) (maxLevel : Nat)
    (resolvedConfig : Obj) : Option (List ModuleRecord) :=
  match populateMap join aliasName maxLevel resolvedConfig [] 1 with
  | none => none
  | some ms => some (ms ++ [rootModule join aliasName (keys resolvedConfig)])

/-- Lines 171-174: the contents of `types/tailwind.config.d.ts`. -/
def typesTemplate (ms : List ModuleRecord) : String :=
  joinWith "\n" (ms.map fun m => m.declaration)

/-! ## What unique module addresses need of the keys -/

/-- No character of `s` is a slash. -/
def noSlash (s : String) : Bool := s.data.all fun c => c.toNat != 47

mutual
/-- On every object below, line 127 reads `find` as intended: the first key failing the
identifier expression, when there is one, is not the empty string, so the truthiness of what
`find` returns says whether some key fails. -/
def findReadsTrueVal : Val → Bool
  | Val.obj fs =>
    (findsUnsafeKey fs == (keys fs).any fun k => !NON_ALPHANUMERIC_RE k)
      && findReadsTrueFields fs
  | _ => true
/-- The same for the values of the entries of an object. -/
def findReadsTrueFields : List (String × Val) → Bool
  | [] => true
  | (_, v) :: rest => findReadsTrueVal v && findReadsTrueFields rest
end

/-- Line 132: the file name of the module at a key path. -/
def fileOf (path : List String) : String :=
  "tailwind.config/" ++ joinWith "/" path ++ ".mjs"

/-- The modules emitted for one entry `key` below `path`: each sits at a key path that
starts with `path` and `key`, is named after that path, and no two share a path. -/
def EntryAddresses (path : List String) (key : String) (ms : List ModuleRecord) : Prop :=
  (∀ m ∈ ms, ∃ rest, m.path = path ++ key :: rest ∧ (∀ s ∈ rest, noSlash s = true)
      ∧ m.filename = fileOf m.path)
    ∧ (ms.map fun m => m.path).Nodup

/-- The modules emitted for the entries with keys `ks` below `path`. -/
def MapAddresses (path : List String) (ks : List String) (ms : List ModuleRecord) : Prop :=
  (∀ m ∈ ms, ∃ k rest, k ∈ ks ∧ m.path = path ++ k :: rest
      ∧ (∀ s ∈ k :: rest, noSlash s = true) ∧ m.filename = fileOf m.path)
    ∧ (ms.map fun m => m.path).Nodup

/-- A small resolved configuration: a list, a theme whose `width` has a key with a slash,
and an empty list. -/
def sampleConfig : Obj :=
  [("content", Val.arr [Val.str "app.vue"]),
   ("theme", Val.obj
      [("width", Val.obj [("1/2", Val.str "50%"), ("full", Val.str "100%")]),
       ("colors", Val.obj [("red", Val.str "#f00")])]),
   ("plugins", Val.arr [])]

/-! ## Layered paths (lines 64-79) -/

/-- The built-in `arr.unshift(...xs)`: the elements of `xs`, in their order, put in front
of `arr`. -/
def unshift (arr xs : List String) : List String := xs ++ arr

/-- Lines 73-76: the body of `layerPaths.forEach`, on the pair `mainPaths`. -/
def unshiftLayer (mainPaths layerPath : List String × List String) :
    List String × List String :=
  (unshift mainPaths.1 layerPath.1, unshift mainPaths.2 layerPath.2)

/-- Lines 64-79: `resolveModulePaths`.  `mainPaths` is the pair computed on line 65 for
the primary layer, `layers` is `nuxt.options._layers` (`none` when it is not an array), and
`configPathsOf` / `contentPathsOf` give what `resolveConfigPath` and `resolveContentPaths`
return for a layer (lines 69-70; they read the file system and the layer options). -/
def resolveModulePaths {Layer : Type} (configPathsOf contentPathsOf : Layer → List String)
    (mainPaths : List String × List String) (layers : Option (List Layer)) :
    List String × List String :=
  match layers with
  | none => mainPaths
  | some ls =>
    if ls.length > 1 then
      ((ls.drop 1).map fun layer => (configPathsOf layer, contentPathsOf layer)).foldl
        unshiftLayer mainPaths
    else mainPaths

/-! ## Properties of property reads and writes -/

theorem getProp_setProp (o : Obj) (k k2 : String) (w : Val) :
    getProp (setProp o k w) k2 = if k = k2 then some w else getProp o k2 := by
  induction o with
  | nil => simp [setProp, getProp]
  | cons e rest ih =>
    obtain ⟨k1, v1⟩ := e
    by_cases h1 : k1 = k
    · subst h1
      by_cases h2 : k1 = k2 <;> simp [setProp, getProp, h2]
    · by_cases h2 : k = k2
      · subst h2
        simp [setProp, getProp, h1, ih]
      · by_cases h3 : k1 = k2
        · subst h3
          simp [setProp, getProp, h1, h2]
        · simp [setProp, getProp, h1, h2, h3, ih]

theorem lacks_setProp (o : Obj) (k k2 : String) (w : Val) (h : k ≠ k2) :
    lacks (setProp o k w) k2 = lacks o k2 := by
  simp [lacks, getProp_setProp, h]

theorem lacks_setProp_of_present (o : Obj) (k k2 : String) (w a : Val)
    (h : getProp o k = some a) : lacks (setProp o k w) k2 = lacks o k2 := by
  by_cases hk : k = k2
  · subst hk
    simp [lacks, getProp_setProp, h]
  · exact lacks_setProp o k k2 w hk

theorem uniqKeys_setProp (o : Obj) (k : String) (w : Val) (h : uniqKeys o = true) :
    uniqKeys (setProp o k w) = true := by
  induction o with
  | nil => simp [setProp, uniqKeys, lacks, getProp]
  | cons e rest ih =>
    obtain ⟨k1, v1⟩ := e
    simp only [uniqKeys, Bool.and_eq_true] at h
    by_cases h1 : k1 = k
    · subst h1
      simp [setProp, uniqKeys, h.1, h.2]
    · have h3 : k ≠ k1 := fun h => h1 h.symm
      simp [setProp, h1, uniqKeys, lacks_setProp _ _ _ _ h3, h.1, ih h.2]

theorem uniqKeys_of_distinctKeys (o : Obj) (h : distinctKeys o = true) : uniqKeys o = true := by
  induction o with
  | nil => rfl
  | cons e rest ih =>
    obtain ⟨k1, v1⟩ := e
    simp only [distinctKeys, Bool.and_eq_true] at h
    simp [uniqKeys, h.1.1, ih h.2]

theorem distinctVal_of_getProp (o : Obj) (k : String) (v : Val) (h : distinctKeys o = true)
    (hk : getProp o k = some v) : distinctVal v = true := by
  induction o with
  | nil => simp [getProp] at hk
  | cons e rest ih =>
    obtain ⟨k1, v1⟩ := e
    simp only [distinctKeys, Bool.and_eq_true] at h
    by_cases h1 : k1 = k
    · simp [getProp, h1] at hk
      subst hk
      exact h.1.2
    · simp [getProp, h1] at hk
      exact ih h.2 hk

theorem genericOnly_pointwise (A B : Obj) (k : String) (a b : Val) (h : genericOnly A B = true)
    (ha : getProp A k = some a) (hb : getProp B k = some b) :
    k ≠ "content" ∧ genericVal a b = true := by
  induction A with
  | nil => simp [getProp] at ha
  | cons e rest ih =>
    obtain ⟨k1, v1⟩ := e
    simp only [genericOnly, Bool.and_eq_true] at h
    by_cases h1 : k1 = k
    · simp [getProp, h1] at ha
      subst ha
      subst h1
      have h2 := h.1
      simp [hb] at h2
      exact h2
    · simp [getProp, h1] at ha
      exact ih h.2 ha

/-! ## The generic rule against the deep merge -/

theorem key_ne_of_mem (rest : Obj) (k : String) (e : String × Val) (h : getProp rest k = none)
    (he : e ∈ rest) : e.1 ≠ k := by
  induction rest with
  | nil => simp at he
  | cons e1 t ih =>
    obtain ⟨k1, v1⟩ := e1
    by_cases h1 : k1 = k
    · simp [getProp, h1] at h
    · simp [getProp, h1] at h
      rcases List.mem_cons.mp he with he | he
      · subst he
        exact h1
      · exact ih h he

theorem deepMergeKeep_nil (acc : Obj) : deepMergeKeep acc [] = acc := by
  induction acc with
  | nil => simp [deepMergeKeep]
  | cons e t ih =>
    obtain ⟨k1, v1⟩ := e
    simp [deepMergeKeep, getProp, ih]

theorem deepMergeKeep_skip (t rest : Obj) (k : String) (v : Val) (h : lacks t k = true) :
    deepMergeKeep t ((k, v) :: rest) = deepMergeKeep t rest := by
  induction t with
  | nil => simp [deepMergeKeep]
  | cons e t ih =>
    obtain ⟨k1, v1⟩ := e
    by_cases h1 : k1 = k
    · simp [lacks, getProp, h1] at h
    · have h2 : ¬ k = k1 := fun h => h1 h.symm
      have h3 : lacks t k = true := by simpa [lacks, getProp, h1] using h
      simp [deepMergeKeep, getProp, h2, ih h3]

theorem deepMergeKeep_present (acc rest : Obj) (k : String) (a v : Val)
    (hu : uniqKeys acc = true) (ha : getProp acc k = some a) (hr : getProp rest k = none) :
    deepMergeKeep (setProp acc k (deepMergeVal a v)) rest = deepMergeKeep acc ((k, v) :: rest) := by
  induction acc with
  | nil => simp [getProp] at ha
  | cons e t ih =>
    obtain ⟨k1, v1⟩ := e
    simp only [uniqKeys, Bool.and_eq_true] at hu
    by_cases h1 : k1 = k
    · subst h1
      simp [getProp] at ha
      subst ha
      simp [setProp, deepMergeKeep, getProp, hr, deepMergeKeep_skip _ _ _ _ hu.1]
    · have h2 : ¬ k = k1 := fun h => h1 h.symm
      simp [getProp, h1] at ha
      simp [setProp, h1, deepMergeKeep, getProp, h2, ih hu.2 ha]

theorem deepMergeKeep_absent (acc rest : Obj) (k : String) (v : Val)
    (ha : getProp acc k = none) (hr : getProp rest k = none) :
    deepMergeKeep (setProp acc k v) rest = deepMergeKeep acc ((k, v) :: rest) ++ [(k, v)] := by
  induction acc with
  | nil => simp [setProp, deepMergeKeep, hr]
  | cons e t ih =>
    obtain ⟨k1, v1⟩ := e
    by_cases h1 : k1 = k
    · simp [getProp, h1] at ha
    · have h2 : ¬ k = k1 := fun h => h1 h.symm
      simp [getProp, h1] at ha
      simp [setProp, h1, deepMergeKeep, getProp, h2, ih ha]

theorem deepMerge_present (acc rest : Obj) (k : String) (a v : Val)
    (hu : uniqKeys acc = true) (ha : getProp acc k = some a) (hr : getProp rest k = none) :
    deepMerge (setProp acc k (deepMergeVal a v)) rest = deepMerge acc ((k, v) :: rest) := by
  have hl : lacks acc k = false := by simp [lacks, ha]
  have hf : (fun e : String × Val => lacks (setProp acc k (deepMergeVal a v)) e.1)
      = fun e => lacks acc e.1 := by
    funext e
    exact lacks_setProp_of_present acc k e.1 _ a ha
  simp [deepMerge, deepMergeKeep_present acc rest k a v hu ha hr, hf, List.filter_cons, hl]

theorem deepMerge_absent (acc rest : Obj) (k : String) (v : Val)
    (ha : getProp acc k = none) (hr : getProp rest k = none) :
    deepMerge (setProp acc k v) rest = deepMerge acc ((k, v) :: rest) := by
  have hl : lacks acc k = true := by simp [lacks, ha]
  have hf : rest.filter (fun e => lacks (setProp acc k v) e.1)
      = rest.filter (fun e => lacks acc e.1) := by
    apply List.filter_congr
    intro e he
    have hne := key_ne_of_mem rest k e hr he
    exact lacks_setProp acc k e.1 v (fun h => hne h.symm)
  simp [deepMerge, deepMergeKeep_absent acc rest k v ha hr, hf, List.filter_cons, hl]

theorem mergerCallback_declined (call : Nat → Val → Val) (acc : Obj) (k : String) (v : Val)
    (h : ∀ b, getProp acc k = some b → k ≠ "content" ∧ genericVal b v = true) :
    mergerCallback call acc k v = Handled.declined := by
  cases hget : getProp acc k with
  | none => simp [mergerCallback, contentRule, reducerRule, hget]
  | some b =>
    obtain ⟨hk, hg⟩ := h b hget
    cases b <;> cases v <;> simp_all [mergerCallback, reducerRule, genericVal]

theorem aligned_tail (acc rest : Obj) (k : String) (v w : Val) (hr : getProp rest k = none)
    (h : Aligned acc ((k, v) :: rest)) : Aligned (setProp acc k w) rest := by
  intro k2 v2 b2 hv hb
  have hne : k ≠ k2 := by
    intro he
    subst he
    rw [hr] at hv
    exact Option.noConfusion hv
  have hb2 : getProp acc k2 = some b2 := by simpa [getProp_setProp, hne] using hb
  exact h k2 v2 b2 (by simpa [getProp, hne] using hv) hb2

theorem aligned_nested (b o : Obj) (hg : genericOnly b o = true) (hd : distinctKeys b = true) :
    Aligned b o := by
  intro k v a hv ha
  have h1 := genericOnly_pointwise b o k a v hg ha hv
  exact ⟨h1.1, h1.2, distinctVal_of_getProp b k a hd ha⟩

theorem genericRule_undefined (merger : Obj → String → Val → Handled) (v : Val) :
    genericRule merger v none = some v := by
  cases v <;> rfl

theorem createDefu_generic (call : Nat → Val → Val) (B acc : Obj) :
    distinctKeys B = true → uniqKeys acc = true → Aligned acc B →
    createDefu (mergerCallback call) B acc = some (deepMerge acc B) := by
  induction B, acc using createDefu.induct (mergerCallback call)
    (motive_2 := fun v x => ∀ b, x = some b → distinctVal v = true → distinctVal b = true →
      genericVal b v = true →
      genericRule (mergerCallback call) v x = some (deepMergeVal b v)) with
  | case1 o b _ ih =>
    rename_i b2 hb hdo hdb hg
    cases Option.some.inj hb
    simp only [distinctVal, genericVal] at hdo hdb hg
    rw [genericRule, ih hdo (uniqKeys_of_distinctKeys b hdb) (aligned_nested b o hg hdb)]
    simp [deepMergeVal, deepMerge]
  | case2 o b m _ ih =>
    rename_i b2 hb hdo hdb hg
    cases Option.some.inj hb
    simp only [distinctVal, genericVal] at hdo hdb hg
    rw [genericRule, ih hdo (uniqKeys_of_distinctKeys b hdb) (aligned_nested b o hg hdb)]
    simp [deepMergeVal, deepMerge]
  | case3 v x hnot =>
    rename_i b hb _ _ _
    rw [genericRule.eq_2 _ _ _ hnot]
    subst hb
    cases b <;> cases v <;> simp [deepMergeVal]
    exact (hnot _ _ rfl rfl).elim
  | case4 acc =>
    intro _ _ _
    simp [createDefu, deepMerge, deepMergeKeep_nil]
  | case5 k v rest acc hthrew =>
    intro _ _ hal
    have hd := mergerCallback_declined call acc k v (fun b hb =>
      ⟨(hal k v b (by simp [getProp]) hb).1, (hal k v b (by simp [getProp]) hb).2.1⟩)
    rw [hd] at hthrew
    exact Handled.noConfusion hthrew
  | case6 k v rest acc acc1 htook _ =>
    intro _ _ hal
    have hd := mergerCallback_declined call acc k v (fun b hb =>
      ⟨(hal k v b (by simp [getProp]) hb).1, (hal k v b (by simp [getProp]) hb).2.1⟩)
    rw [hd] at htook
    exact Handled.noConfusion htook
  | case7 k v rest acc _ hnone ih =>
    intro hB _ hal
    simp only [distinctKeys, Bool.and_eq_true] at hB
    cases hget : getProp acc k with
    | none =>
      rw [hget, genericRule_undefined] at hnone
      exact Option.noConfusion hnone
    | some b =>
      obtain ⟨_, hg, hdb⟩ := hal k v b (by simp [getProp]) hget
      rw [ih b hget hB.1.2 hdb hg] at hnone
      exact Option.noConfusion hnone
  | case8 k v rest acc hdecl w hw ih1 ih2 =>
    intro hB hu hal
    simp only [distinctKeys, Bool.and_eq_true] at hB
    have hr : getProp rest k = none := by simpa [lacks] using hB.1.1
    have h2 := ih2 hB.2 (uniqKeys_setProp acc k _ hu) (aligned_tail acc rest k _ _ hr hal)
    have hstep : createDefu (mergerCallback call) ((k, v) :: rest) acc
        = createDefu (mergerCallback call) rest (setProp acc k w) := by
      rw [createDefu, hdecl]
      simp only [hw]
    rw [hstep, h2]
    cases hget : getProp acc k with
    | none =>
      rw [hget, genericRule_undefined] at hw
      cases Option.some.inj hw
      rw [deepMerge_absent acc rest k v hget hr]
    | some b =>
      obtain ⟨_, hg, hdb⟩ := hal k v b (by simp [getProp]) hget
      rw [ih1 b hget hB.1.2 hdb hg] at hw
      cases Option.some.inj hw
      rw [deepMerge_present acc rest k b v hu hget hr]

/-! ## The merge contract -/

theorem getProp_append (X Y : Obj) (k : String) :
    getProp (X ++ Y) k = (getProp X k).orElse fun _ => getProp Y k := by
  induction X with
  | nil => simp [getProp]
  | cons e t ih =>
    obtain ⟨k1, v1⟩ := e
    by_cases h1 : k1 = k <;> simp [getProp, h1, ih]

theorem getProp_deepMergeKeep (A B : Obj) (k : String) :
    getProp (deepMergeKeep A B) k =
      (getProp A k).map fun a =>
        match getProp B k with
        | none => a
        | some b => deepMergeVal a b := by
  induction A with
  | nil => simp [deepMergeKeep, getProp]
  | cons e t ih =>
    obtain ⟨k1, v1⟩ := e
    by_cases h1 : k1 = k
    · subst h1
      simp [deepMergeKeep, getProp]
    · simp [deepMergeKeep, getProp, h1, ih]

theorem getProp_filter_lacks (A B : Obj) (k : String) :
    getProp (B.filter fun e => lacks A e.1) k = if lacks A k then getProp B k else none := by
  induction B with
  | nil => simp [getProp]
  | cons e t ih =>
    obtain ⟨k1, v1⟩ := e
    by_cases h1 : k1 = k
    · subst h1
      by_cases h2 : lacks A k1 = true
      · simp [List.filter_cons, h2, getProp]
      · simp [List.filter_cons, h2, getProp, ih]
    · by_cases h2 : lacks A k1 = true
      · simp [List.filter_cons, h2, getProp, h1, ih]
      · simp [List.filter_cons, h2, getProp, h1, ih]

/-- Reading of `deepMerge` key by key: a key on one side only keeps its value, two plain
mappings are merged recursively, otherwise the overriding value stands. -/
theorem getProp_deepMerge (A B : Obj) (k : String) :
    getProp (deepMerge A B) k =
      match getProp A k, getProp B k with
      | none, b => b
      | some a, none => some a
      | some (Val.obj a), some (Val.obj b) => some (Val.obj (deepMerge a b))
      | some _, some b => some b := by
  rw [deepMerge, getProp_append, getProp_deepMergeKeep, getProp_filter_lacks]
  cases ha : getProp A k with
  | none => simp [lacks, ha]
  | some a =>
    cases hb : getProp B k with
    | none => simp
    | some b => cases a <;> cases b <;> simp [deepMergeVal, deepMerge]

/-- C1. For configuration trees `A` and `B` (objects with distinct keys) in which no key
is `content` on both sides and no overriding callable faces a list, `merge(A, B)`, that is
`configMerger(B, A)`, returns the rightmost-wins deep merge of `A` and `B`. -/
theorem merge_eq_deepMerge (call : Nat → Val → Val) (A B : Obj)
    (hA : distinctKeys A = true) (hB : distinctKeys B = true)
    (h : genericOnly A B = true) :
    merge call A B = some (deepMerge A B) :=
  createDefu_generic call B A hB (uniqKeys_of_distinctKeys A hA) (aligned_nested A B h hA)

theorem merge_eq_deepMerge_witness :
    merge (fun _ v => v)
        [("theme", Val.obj [("colors", Val.arr [Val.str "red"]), ("spacing", Val.num 4)]),
         ("prefix", Val.str "tw-")]
        [("theme", Val.obj [("colors", Val.obj [("primary", Val.str "blue")]),
                            ("screens", Val.bool false)]),
         ("darkMode", Val.bool true), ("prefix", Val.obj [])]
      = some
        [("theme", Val.obj [("colors", Val.obj [("primary", Val.str "blue")]),
                            ("spacing", Val.num 4), ("screens", Val.bool false)]),
         ("prefix", Val.obj []), ("darkMode", Val.bool true)] :=
  merge_eq_deepMerge (fun _ v => v) _ _ (by decide) (by decide) (by decide)

/-- C2. Content reconciliation puts the base side first in both argument orders: a bare
list `xs` as base under `{files: ys}` gives `files = xs ++ ys`, the object `{files: ys}` as
base under the bare list `xs` gives `files = ys ++ xs`; so
`merge({content: ["a/**"]}, {content: {files: ["b/**"]}})` is
`{content: {files: ["a/**", "b/**"]}}`. -/
theorem merge_content_base_first (call : Nat → Val → Val) (xs ys : List Val) :
    merge call [("content", Val.arr xs)] [("content", Val.obj [("files", Val.arr ys)])]
        = some [("content", Val.obj [("files", Val.arr (xs ++ ys))])]
      ∧ configMerger call [("content", Val.obj [("files", Val.arr ys)])] [("content", Val.arr xs)]
        = some [("content", Val.obj [("files", Val.arr (xs ++ ys))])]
      ∧ merge call [("content", Val.obj [("files", Val.arr ys)])] [("content", Val.arr xs)]
        = some [("content", Val.obj [("files", Val.arr (ys ++ xs))])]
      ∧ configMerger call [("content", Val.arr xs)] [("content", Val.obj [("files", Val.arr ys)])]
        = some [("content", Val.obj [("files", Val.arr (ys ++ xs))])]
      ∧ merge call [("content", Val.arr [Val.str "a/**"])]
          [("content", Val.obj [("files", Val.arr [Val.str "b/**"])])]
        = some [("content", Val.obj [("files", Val.arr [Val.str "a/**", Val.str "b/**"])])] := by
  simp [merge, configMerger, createDefu, mergerCallback, contentRule, getProp, setProp,
    spreadOrEmpty]

/-- C3. Function-reducer rule: for every key `k`, list `xs` and callable `f`,
`merge({k: xs}, {k: f})`, that is `configMerger({k: f}, {k: xs})`, is `{k: f(xs)}`: the
callable is applied to the base list and its return value is stored. -/
theorem merge_callable_reduces (call : Nat → Val → Val) (k : String) (xs : List Val) (f : Nat) :
    merge call [(k, Val.arr xs)] [(k, Val.fn f)] = some [(k, call f (Val.arr xs))]
      ∧ configMerger call [(k, Val.fn f)] [(k, Val.arr xs)] = some [(k, call f (Val.arr xs))]
      ∧ merge call [("plugins", Val.arr [Val.str "x"])] [("plugins", Val.fn f)]
        = some [("plugins", call f (Val.arr [Val.str "x"]))] := by
  simp [merge, configMerger, createDefu, mergerCallback, contentRule, reducerRule, getProp,
    setProp]

/-! ## One step of the loop of `createDefu` -/

/-- What one entry of the overriding tree does to the accumulator. -/
theorem createDefu_cons (merger : Obj → String → Val → Handled) (k : String) (v : Val)
    (rest acc : Obj) :
    createDefu merger ((k, v) :: rest) acc =
      match merger acc k v with
      | Handled.threw => none
      | Handled.took acc1 => createDefu merger rest acc1
      | Handled.declined =>
        match genericRule merger v (getProp acc k) with
        | none => none
        | some w => createDefu merger rest (setProp acc k w) := by
  rw [createDefu]

theorem createDefu_step (merger : Obj → String → Val → Handled) (e : String × Val)
    (rest acc : Obj) :
    createDefu merger (e :: rest) acc
      = (createDefu merger [e] acc).bind fun a => createDefu merger rest a := by
  obtain ⟨k, v⟩ := e
  rw [createDefu_cons, createDefu_cons merger k v []]
  cases merger acc k v with
  | threw => rfl
  | took acc1 => simp [createDefu]
  | declined =>
    simp only []
    cases genericRule merger v (getProp acc k) <;> simp [createDefu]

theorem mergerCallback_took (call : Nat → Val → Val) (acc acc1 : Obj) (k : String) (v : Val)
    (h : mergerCallback call acc k v = Handled.took acc1) : ∃ w, acc1 = setProp acc k w := by
  unfold mergerCallback contentRule reducerRule at h
  split at h
  · rename_i hd heq
    split at heq
    · split at heq
      · split at heq
        · simp only [Option.some.injEq] at heq
          subst heq
          exact ⟨_, (Handled.took.inj h).symm⟩
        · simp only [Option.some.injEq] at heq
          subst heq
          exact Handled.noConfusion h
      · simp only [Option.some.injEq] at heq
        subst heq
        exact Handled.noConfusion h
      · split at heq
        · simp only [Option.some.injEq] at heq
          subst heq
          exact ⟨_, (Handled.took.inj h).symm⟩
        · simp only [Option.some.injEq] at heq
          subst heq
          exact Handled.noConfusion h
      · simp only [Option.some.injEq] at heq
        subst heq
        exact Handled.noConfusion h
      · exact Option.noConfusion heq
    · exact Option.noConfusion heq
  · split at h
    · exact ⟨_, (Handled.took.inj h).symm⟩
    · exact Handled.noConfusion h

theorem createDefu_single_other (call : Nat → Val → Val) (acc acc2 : Obj) (k1 k : String)
    (v1 : Val) (h : createDefu (mergerCallback call) [(k1, v1)] acc = some acc2)
    (hne : k1 ≠ k) : getProp acc2 k = getProp acc k := by
  rw [createDefu_cons] at h
  split at h
  · exact Option.noConfusion h
  · rename_i acc1 htook
    obtain ⟨w, hw⟩ := mergerCallback_took call acc acc1 k1 v1 htook
    simp only [createDefu, Option.some.injEq] at h
    subst h
    subst hw
    simp [getProp_setProp, hne]
  · split at h
    · exact Option.noConfusion h
    · simp only [createDefu, Option.some.injEq] at h
      subst h
      simp [getProp_setProp, hne]

/-- A key the overriding tree lacks keeps the value the accumulator has for it. -/
theorem createDefu_getProp_of_lacks (call : Nat → Val → Val) (B : Obj) (k : String) :
    ∀ acc r, createDefu (mergerCallback call) B acc = some r → lacks B k = true →
      getProp r k = getProp acc k := by
  induction B with
  | nil =>
    intro acc r h _
    simp only [createDefu, Option.some.injEq] at h
    rw [h]
  | cons e rest ih =>
    intro acc r h hl
    obtain ⟨k1, v1⟩ := e
    rw [createDefu_step] at h
    cases h1 : createDefu (mergerCallback call) [(k1, v1)] acc with
    | none => simp [h1] at h
    | some a =>
      simp only [h1, Option.bind] at h
      have hne : k1 ≠ k := by
        intro he
        simp [lacks, getProp, he] at hl
      have hl2 : lacks rest k = true := by simpa [lacks, getProp, hne] using hl
      rw [ih a r h hl2, createDefu_single_other call acc a k1 k v1 h1 hne]

/-- The value the result has at a key of the overriding tree is decided by the single step
for that key, taken on an accumulator that still holds the base value for it. -/
theorem createDefu_getProp_of_present (call : Nat → Val → Val) (B : Obj) (k : String) (v : Val) :
    ∀ acc r, uniqKeys B = true → getProp B k = some v →
      createDefu (mergerCallback call) B acc = some r →
      ∃ acc0 acc2, getProp acc0 k = getProp acc k
        ∧ createDefu (mergerCallback call) [(k, v)] acc0 = some acc2
        ∧ getProp r k = getProp acc2 k := by
  induction B with
  | nil =>
    intro acc r _ hg _
    simp [getProp] at hg
  | cons e rest ih =>
    intro acc r hu hg h
    obtain ⟨k1, v1⟩ := e
    simp only [uniqKeys, Bool.and_eq_true] at hu
    rw [createDefu_step] at h
    cases h1 : createDefu (mergerCallback call) [(k1, v1)] acc with
    | none => simp [h1] at h
    | some a =>
      simp only [h1, Option.bind] at h
      by_cases hk : k1 = k
      · subst hk
        simp only [getProp, if_true, Option.some.injEq] at hg
        subst hg
        exact ⟨acc, a, rfl, h1, createDefu_getProp_of_lacks call rest k1 a r h hu.1⟩
      · simp only [getProp, hk, if_false] at hg
        obtain ⟨acc0, acc2, h2, h3, h4⟩ := ih a r hu.2 hg h
        exact ⟨acc0, acc2, by rw [h2, createDefu_single_other call acc a k1 k v1 h1 hk], h3, h4⟩

/-! ## The fold of `setup` -/

theorem setProp_setProp (o : Obj) (k : String) (v w : Val) :
    setProp (setProp o k v) k w = setProp o k w := by
  induction o with
  | nil => simp [setProp]
  | cons e t ih =>
    obtain ⟨k1, v1⟩ := e
    by_cases h1 : k1 = k <;> simp [setProp, h1, ih]

theorem configMerger_scalar (call : Nat → Val → Val) (k : String) (s : Val) (acc : Obj)
    (hs : isScalar s = true) : configMerger call [(k, s)] acc = some (setProp acc k s) := by
  rw [configMerger, createDefu_cons]
  cases s <;> simp [isScalar] at hs <;>
    simp [mergerCallback, contentRule, reducerRule, createDefu, genericRule]

theorem reduceConfigs_append (call : Nat → Val → Val) (fs gs : List Obj) (seed : Obj) :
    reduceConfigs call (fs ++ gs) seed
      = (reduceConfigs call fs seed).bind fun acc => reduceConfigs call gs acc := by
  induction fs generalizing seed with
  | nil => simp [reduceConfigs]
  | cons f rest ih =>
    simp only [List.cons_append, reduceConfigs]
    cases configMerger call f seed with
    | none => rfl
    | some next => exact ih next

theorem reduceConfigs_single (call : Nat → Val → Val) (f seed : Obj) :
    reduceConfigs call [f] seed = configMerger call f seed := by
  simp only [reduceConfigs]
  cases configMerger call f seed <;> rfl

theorem reduceConfigs_scalars (call : Nat → Val → Val) (k : String) (ss : List Val) :
    ∀ (s : Val) (seed : Obj), isScalar s = true → (∀ t ∈ ss, isScalar t = true) →
      reduceConfigs call ((s :: ss).map fun v => [(k, v)]) seed
        = some (setProp seed k (lastOf s ss)) := by
  induction ss with
  | nil =>
    intro s seed hs _
    simp [reduceConfigs, configMerger_scalar call k s seed hs, lastOf]
  | cons t ts ih =>
    intro s seed hs hall
    have ht : isScalar t = true := hall t (List.mem_cons_self t ts)
    have hts : ∀ u ∈ ts, isScalar u = true := fun u hu => hall u (List.mem_cons_of_mem t hu)
    have h := ih t (setProp seed k s) ht hts
    rw [setProp_setProp] at h
    rw [List.map_cons, reduceConfigs, configMerger_scalar call k s seed hs]
    simpa [lastOf] using h

/-- C4. The fragment fold is the left fold in which every fragment is the overriding side
against the running accumulator: the empty list returns the seed, the last fragment of the
list is merged last (as `configMerger(fn, acc)`), three fragments give
`configMerger(f3, configMerger(f2, configMerger(f1, seed)))`, and the seed of the pipeline
is `configMerger(userConfig, {content: contentPaths})`.  Fragments that set one key to
scalars leave the value of the last fragment, where the right fold leaves the first. -/
theorem reduceConfigs_is_left_fold (call : Nat → Val → Val) :
    (∀ seed, reduceConfigs call [] seed = some seed)
    ∧ (∀ fs f seed, reduceConfigs call (fs ++ [f]) seed
        = (reduceConfigs call fs seed).bind fun acc => configMerger call f acc)
    ∧ (∀ f1 f2 f3 seed, reduceConfigs call [f1, f2, f3] seed
        = ((configMerger call f1 seed).bind fun a1 => configMerger call f2 a1).bind
            fun a2 => configMerger call f3 a2)
    ∧ (∀ configs userConfig contentPaths,
        tailwindConfig call configs userConfig contentPaths
          = (configMerger call userConfig [("content", Val.arr contentPaths)]).bind
              fun seed => reduceConfigs call configs seed)
    ∧ (∀ k s ss seed, isScalar s = true → (∀ t ∈ ss, isScalar t = true) →
        reduceConfigs call ((s :: ss).map fun v => [(k, v)]) seed
          = some (setProp seed k (lastOf s ss)))
    ∧ reduceConfigs call [[("x", Val.num 1)], [("x", Val.num 2)]] [] = some [("x", Val.num 2)]
    ∧ ((configMerger call [("x", Val.num 2)] []).bind
          fun a => configMerger call [("x", Val.num 1)] a) = some [("x", Val.num 1)] := by
  refine ⟨fun _ => rfl, ?_, ?_, ?_, ?_, ?_, ?_⟩
  · intro fs f seed
    rw [reduceConfigs_append]
    congr 1
    funext acc
    exact reduceConfigs_single call f acc
  · intro f1 f2 f3 seed
    simp only [reduceConfigs]
    cases configMerger call f1 seed with
    | none => rfl
    | some a1 =>
      cases h2 : configMerger call f2 a1 with
      | none => simp [Option.bind, h2]
      | some a2 => cases h3 : configMerger call f3 a2 <;> simp [Option.bind, h2, h3]
  · intro configs userConfig contentPaths
    simp only [tailwindConfig]
    cases configMerger call userConfig [("content", Val.arr contentPaths)] <;> rfl
  · exact fun k s ss seed hs hall => reduceConfigs_scalars call k ss s seed hs hall
  · exact reduceConfigs_scalars call "x" [Val.num 2] (Val.num 1) [] rfl (by simp [isScalar])
  · rw [configMerger_scalar call "x" (Val.num 2) [] rfl]
    exact configMerger_scalar call "x" (Val.num 1) _ rfl

theorem reduceConfigs_is_left_fold_witness :
    reduceConfigs (fun _ v => v)
        ([Val.str "a", Val.bool true, Val.num 7].map fun v => [("prefix", v)])
        [("prefix", Val.null), ("content", Val.arr [])]
      = some [("prefix", Val.num 7), ("content", Val.arr [])] :=
  (reduceConfigs_is_left_fold (fun _ v => v)).2.2.2.2.1 "prefix" (Val.str "a")
    [Val.bool true, Val.num 7] [("prefix", Val.null), ("content", Val.arr [])] rfl
    (by decide)

/-! ## The shape of `content` -/

theorem isArray_eq_true (v : Option Val) (h : isArray v = true) : ∃ xs, v = some (Val.arr xs) := by
  cases v with
  | none => simp [isArray] at h
  | some w =>
    cases w <;> simp [isArray] at h
    exact ⟨_, rfl⟩

theorem createDefu_files_step (call : Nat → Val → Val) (ys fs : List Val) (c0 c2 : Obj)
    (h : createDefu (mergerCallback call) [("files", Val.arr ys)] c0 = some c2)
    (hc : getProp c0 "files" = some (Val.arr fs)) :
    getProp c2 "files" = some (Val.arr ys) := by
  rw [createDefu_cons] at h
  simp [mergerCallback, reducerRule, hc, createDefu, genericRule] at h
  subst h
  simp [getProp_setProp]

/-- Two objects carrying a `files` list merge into an object carrying a `files` list. -/
theorem createDefu_keeps_files (call : Nat → Val → Val) (o c m : Obj)
    (h : createDefu (mergerCallback call) o c = some m) (ho : uniqKeys o = true)
    (hof : isArray (getProp o "files") = true) (hcf : isArray (getProp c "files") = true) :
    isArray (getProp m "files") = true := by
  obtain ⟨ys, hys⟩ := isArray_eq_true _ hof
  obtain ⟨fs, hfs⟩ := isArray_eq_true _ hcf
  obtain ⟨c0, c2, h1, h2, h3⟩ := createDefu_getProp_of_present call o "files" (Val.arr ys) c m ho hys h
  rw [h3, createDefu_files_step call ys fs c0 c2 h2 (by rw [h1, hfs])]
  rfl

theorem mergerCallback_list_list (call : Nat → Val → Val) (acc : Obj) (k : String)
    (xs ys : List Val) (hg : getProp acc k = some (Val.arr xs)) :
    mergerCallback call acc k (Val.arr ys) = Handled.declined := by
  by_cases hk : k = "content"
  · subst hk
    simp [mergerCallback, contentRule, reducerRule, hg]
  · simp [mergerCallback, reducerRule, hg, hk]

theorem mergerCallback_list_files (call : Nat → Val → Val) (acc o : Obj) (xs ys : List Val)
    (hg : getProp acc "content" = some (Val.arr xs)) (ho : getProp o "files" = some (Val.arr ys)) :
    mergerCallback call acc "content" (Val.obj o)
      = Handled.took (setProp acc "content" (Val.obj (setProp o "files" (Val.arr (xs ++ ys))))) := by
  simp [mergerCallback, contentRule, hg, ho, spreadOrEmpty]

theorem mergerCallback_files_list (call : Nat → Val → Val) (acc c : Obj) (fs ys : List Val)
    (hg : getProp acc "content" = some (Val.obj c)) (hc : getProp c "files" = some (Val.arr fs)) :
    mergerCallback call acc "content" (Val.arr ys)
      = Handled.took (setProp acc "content" (Val.obj (setProp c "files" (Val.arr (fs ++ ys))))) := by
  simp [mergerCallback, contentRule, hg, hc, spreadOrEmpty]

theorem mergerCallback_obj_obj (call : Nat → Val → Val) (acc c o : Obj) (k : String)
    (hg : getProp acc k = some (Val.obj c)) :
    mergerCallback call acc k (Val.obj o) = Handled.declined := by
  by_cases hk : k = "content"
  · subst hk
    simp [mergerCallback, contentRule, reducerRule, hg]
  · simp [mergerCallback, reducerRule, hg, hk]

theorem createDefu_content_step (call : Nat → Val → Val) (v : Val) (acc0 acc2 : Obj)
    (h : createDefu (mergerCallback call) [("content", v)] acc0 = some acc2)
    (hacc : listOrFiles (getProp acc0 "content") = true)
    (hv : listOrFiles (some v) = true) (hd : distinctVal v = true) :
    isFilesObject (getProp acc2 "content")
        = (isFilesObject (getProp acc0 "content") || isFilesObject (some v))
      ∧ listOrFiles (getProp acc2 "content") = true := by
  rw [createDefu_cons] at h
  cases hg : getProp acc0 "content" with
  | none => simp [hg, listOrFiles, isArray, isFilesObject] at hacc
  | some b =>
    cases b with
    | arr xs =>
      cases v with
      | arr ys =>
        rw [mergerCallback_list_list call acc0 "content" xs ys hg, hg] at h
        simp only [genericRule, createDefu, Option.some.injEq] at h
        subst h
        simp [getProp_setProp, isFilesObject, listOrFiles, isArray]
      | obj o =>
        have hof : isArray (getProp o "files") = true := by
          simpa [listOrFiles, isArray, isFilesObject] using hv
        obtain ⟨ys, hys⟩ := isArray_eq_true _ hof
        rw [mergerCallback_list_files call acc0 o xs ys hg hys] at h
        simp only [createDefu, Option.some.injEq] at h
        subst h
        simp [getProp_setProp, isFilesObject, listOrFiles, isArray, hys]
      | _ => simp [listOrFiles, isArray, isFilesObject] at hv
    | obj c =>
      have hcf : isArray (getProp c "files") = true := by
        simpa [hg, listOrFiles, isArray, isFilesObject] using hacc
      obtain ⟨fs, hfs⟩ := isArray_eq_true _ hcf
      cases v with
      | arr ys =>
        rw [mergerCallback_files_list call acc0 c fs ys hg hfs] at h
        simp only [createDefu, Option.some.injEq] at h
        subst h
        simp [getProp_setProp, isFilesObject, listOrFiles, isArray, hfs]
      | obj o =>
        have hof : isArray (getProp o "files") = true := by
          simpa [listOrFiles, isArray, isFilesObject] using hv
        simp only [distinctVal] at hd
        rw [mergerCallback_obj_obj call acc0 c o "content" hg, hg] at h
        simp only [genericRule] at h
        cases hm : createDefu (mergerCallback call) o c with
        | none =>
          rw [hm] at h
          exact Option.noConfusion h
        | some m =>
          rw [hm] at h
          simp only [createDefu, Option.some.injEq] at h
          subst h
          have hmf := createDefu_keeps_files call o c m hm (uniqKeys_of_distinctKeys o hd) hof hcf
          simp [getProp_setProp, isFilesObject, listOrFiles, hmf, hcf, hof]
      | _ => simp [listOrFiles, isArray, isFilesObject] at hv
    | _ => simp [hg, listOrFiles, isArray, isFilesObject] at hacc

theorem configMerger_content_shape (call : Nat → Val → Val) (f acc r : Obj)
    (h : configMerger call f acc = some r) (hd : distinctKeys f = true)
    (hf : contentShaped f = true) (hacc : listOrFiles (getProp acc "content") = true) :
    hasFilesContent r = (hasFilesContent acc || hasFilesContent f)
      ∧ listOrFiles (getProp r "content") = true := by
  unfold configMerger at h
  cases hg : getProp f "content" with
  | none =>
    have hr := createDefu_getProp_of_lacks call f "content" acc r h (by simp [lacks, hg])
    simp [hasFilesContent, hr, hg, isFilesObject, hacc]
  | some v =>
    obtain ⟨acc0, acc2, h1, h2, h3⟩ := createDefu_getProp_of_present call f "content" v acc r
      (uniqKeys_of_distinctKeys f hd) hg h
    have hv : listOrFiles (some v) = true := by
      unfold contentShaped at hf
      rw [hg] at hf
      cases v <;> simp_all [listOrFiles, isArray]
    have hstep := createDefu_content_step call v acc0 acc2 h2 (by rw [h1]; exact hacc) hv
      (distinctVal_of_getProp f "content" v hd hg)
    simp only [hasFilesContent, h3, hg]
    rw [← h1]
    exact hstep

theorem reduceConfigs_content_shape (call : Nat → Val → Val) (configs : List Obj) :
    ∀ (seed r : Obj), reduceConfigs call configs seed = some r →
      (∀ c ∈ configs, distinctKeys c = true ∧ contentShaped c = true) →
      listOrFiles (getProp seed "content") = true →
      hasFilesContent r = (hasFilesContent seed || configs.any hasFilesContent)
        ∧ listOrFiles (getProp r "content") = true := by
  induction configs with
  | nil =>
    intro seed r h _ hs
    simp only [reduceConfigs, Option.some.injEq] at h
    subst h
    simp [hs]
  | cons f rest ih =>
    intro seed r h hall hs
    simp only [reduceConfigs] at h
    cases hm : configMerger call f seed with
    | none => simp [hm] at h
    | some next =>
      simp only [hm] at h
      have hf := hall f (List.mem_cons_self f rest)
      have h1 := configMerger_content_shape call f seed next hm hf.1 hf.2 hs
      have h2 := ih next r h (fun c hc => hall c (List.mem_cons_of_mem f hc)) h1.2
      refine ⟨?_, h2.2⟩
      rw [h2.1, h1.1, List.any_cons, Bool.or_assoc]

/-- C5, refuted as stated: with a user configuration that sets no `content` and a fragment
that sets none either, the merged `content` is the bare list of computed content paths. -/
theorem tailwindConfig_content_bare_list :
    tailwindConfig (fun _ v => v) [[("theme", Val.obj [])]] [("darkMode", Val.str "class")]
        [Val.str "components/**/*.vue"]
      = some [("content", Val.arr [Val.str "components/**/*.vue"]),
              ("darkMode", Val.str "class"), ("theme", Val.obj [])]
    ∧ hasFilesContent [("content", Val.arr [Val.str "components/**/*.vue"]),
              ("darkMode", Val.str "class"), ("theme", Val.obj [])] = false
    ∧ ¬ (∀ (call : Nat → Val → Val) (configs : List Obj) (userConfig : Obj)
          (contentPaths : List Val) (r : Obj),
          tailwindConfig call configs userConfig contentPaths = some r →
            hasFilesContent r = true) := by
  have h1 : tailwindConfig (fun _ v => v) [[("theme", Val.obj [])]]
      [("darkMode", Val.str "class")] [Val.str "components/**/*.vue"]
      = some [("content", Val.arr [Val.str "components/**/*.vue"]),
              ("darkMode", Val.str "class"), ("theme", Val.obj [])] := by
    rfl
  refine ⟨h1, by decide, ?_⟩
  intro hall
  have := hall _ _ _ _ _ h1
  revert this
  decide

/-- C5, amended. When the content of the user configuration and of every fragment is
absent, a bare list or an object carrying a `files` list (objects having distinct keys),
the merged `content` is an object carrying a `files` list exactly when the user
configuration or some fragment gives such an object; otherwise it is a bare list. -/
theorem tailwindConfig_content_shape (call : Nat → Val → Val) (configs : List Obj)
    (userConfig : Obj) (contentPaths : List Val) (r : Obj)
    (hwf : ∀ c ∈ userConfig :: configs, distinctKeys c = true ∧ contentShaped c = true)
    (h : tailwindConfig call configs userConfig contentPaths = some r) :
    hasFilesContent r = (userConfig :: configs).any hasFilesContent
      ∧ (hasFilesContent r = false → isArray (getProp r "content") = true) := by
  simp only [tailwindConfig] at h
  cases hm : configMerger call userConfig [("content", Val.arr contentPaths)] with
  | none => simp [hm] at h
  | some seed =>
    simp only [hm] at h
    have hu := hwf userConfig (List.mem_cons_self _ _)
    have h1 := configMerger_content_shape call userConfig _ seed hm hu.1 hu.2
      (by simp [listOrFiles, getProp, isArray])
    have h2 := reduceConfigs_content_shape call configs seed r h
      (fun c hc => hwf c (List.mem_cons_of_mem _ hc)) h1.2
    have h3 : hasFilesContent [("content", Val.arr contentPaths)] = false := by
      simp [hasFilesContent, getProp, isFilesObject]
    refine ⟨?_, ?_⟩
    · rw [h2.1, h1.1, h3, List.any_cons, Bool.false_or]
    · intro hno
      have := h2.2
      simp only [listOrFiles, Bool.or_eq_true] at this
      rcases this with h4 | h4
      · exact h4
      · simp only [hasFilesContent] at hno
        rw [hno] at h4
        exact Bool.noConfusion h4

theorem tailwindConfig_content_shape_witness :
    hasFilesContent
        [("content", Val.obj [("files", Val.arr [Val.str "components/**/*.vue", Val.str "./app.vue"]),
                               ("relative", Val.bool true)]),
         ("theme", Val.obj [])]
      = [[("content", Val.obj [("files", Val.arr [Val.str "./app.vue"]), ("relative", Val.bool true)])],
         [("theme", Val.obj [])]].any hasFilesContent
    ∧ (hasFilesContent
        [("content", Val.obj [("files", Val.arr [Val.str "components/**/*.vue", Val.str "./app.vue"]),
                               ("relative", Val.bool true)]),
         ("theme", Val.obj [])] = false →
       isArray (getProp
        [("content", Val.obj [("files", Val.arr [Val.str "components/**/*.vue", Val.str "./app.vue"]),
                               ("relative", Val.bool true)]),
         ("theme", Val.obj [])] "content") = true) :=
  tailwindConfig_content_shape (fun _ v => v)
    [[("theme", Val.obj [])]]
    [("content", Val.obj [("files", Val.arr [Val.str "./app.vue"]), ("relative", Val.bool true)])]
    [Val.str "components/**/*.vue"]
    [("content", Val.obj [("files", Val.arr [Val.str "components/**/*.vue", Val.str "./app.vue"]),
                           ("relative", Val.bool true)]),
     ("theme", Val.obj [])]
    (by decide) rfl

/-! ## The template synthesiser on concrete trees -/

/-- The first example of the partition rule: `{a: {b: 1, c: 2}}` at `level = 1` gives one
leaf module at `a` binding `b` and `c`, then the root module. -/
theorem createTemplates_level_one (join : String → String → String) :
    (createTemplates join "#tailwind-config" 1
        [("a", Val.obj [("b", Val.num 1), ("c", Val.num 2)])]).map
      (fun ms => ms.map fun m => (m.kind, m.filename, m.contents))
    = some
      [(Kind.leafObject, "tailwind.config/a.mjs",
        "const _b = 1\nconst _c = 2\nconst config = \x7b \"b\": _b, \"c\": _c,  \x7d\nexport \x7b config as default, _b, _c \x7d"),
       (Kind.root, "tailwind.config/index.mjs",
        "import a from \"#build/tailwind.config/a.mjs\"\nconst config = \x7b a \x7d\nexport \x7b config as default, a \x7d")] := by
  rfl

/-- The second example of the partition rule: at `level = 2` the same tree gives the
leaves `a/b` and `a/c`, the aggregator at `a`, then the root module. -/
theorem createTemplates_level_two (join : String → String → String) :
    (createTemplates join "#tailwind-config" 2
        [("a", Val.obj [("b", Val.num 1), ("c", Val.num 2)])]).map
      (fun ms => ms.map fun m => (m.kind, m.filename, m.contents))
    = some
      [(Kind.leafLiteral, "tailwind.config/a/b.mjs", "export default 1"),
       (Kind.leafLiteral, "tailwind.config/a/c.mjs", "export default 2"),
       (Kind.aggregator, "tailwind.config/a.mjs",
        "import _b from \"./a/b.mjs\"\nimport _c from \"./a/c.mjs\"\nconst config = \x7b \"b\": _b, \"c\": _c \x7d\nexport \x7b config as default, _b, _c \x7d"),
       (Kind.root, "tailwind.config/index.mjs",
        "import a from \"#build/tailwind.config/a.mjs\"\nconst config = \x7b a \x7d\nexport \x7b config as default, a \x7d")] := by
  rfl

/-- A value that is a number, a string, a boolean, a list or a callable is materialised
as one literal module, at every level. -/
theorem populateEntry_literal (join : String → String → String) (aliasName : String)
    (maxLevel : Nat) (value : Val) (key : String) (path : List String) (level : Nat)
    (hobj : isJSObject (some value) = false) :
    populateEntry join aliasName maxLevel value key path level
      = some [leafLiteralModule aliasName (path ++ [key]) value] := by
  cases value <;> first | rfl | simp [isJSObject] at hobj

theorem find_truthy_eq_any (p : String → Bool) (ks : List String) (h : "" ∉ ks) :
    (match ks.find? p with
     | none => false
     | some k => k != "") = ks.any p := by
  induction ks with
  | nil => rfl
  | cons k ks ih =>
    simp only [List.mem_cons, not_or] at h
    by_cases hp : p k = true
    · have hk : (k != "") = true := by
        simp only [bne_iff_ne, ne_eq]
        exact fun he => h.1 he.symm
      simp [List.find?, hp, hk]
    · have hp2 : p k = false := by simpa using hp
      simp only [List.find?, hp2, List.any_cons, Bool.false_or]
      exact ih h.2

/-- When no key of the value is the empty string, the test of line 127 holds exactly when
some key of the value fails the identifier expression. -/
theorem findsUnsafeKey_eq_any (fs : Obj) (h : "" ∉ keys fs) :
    findsUnsafeKey fs = (keys fs).any fun k => !NON_ALPHANUMERIC_RE k :=
  find_truthy_eq_any _ (keys fs) h

/-- The partition rule for an object value none of whose keys is empty: a leaf when the
level bound is reached or some key fails the identifier expression, otherwise the children
one level down followed by the aggregator. -/
theorem populateEntry_object (join : String → String → String) (aliasName : String)
    (maxLevel : Nat) (fs : Obj) (key : String) (path : List String) (level : Nat)
    (h : "" ∉ keys fs) :
    populateEntry join aliasName maxLevel (Val.obj fs) key path level
      = if maxLevel ≤ level ∨ ((keys fs).any fun k => !NON_ALPHANUMERIC_RE k) = true then
          some [leafObjectModule aliasName (path ++ [key]) fs]
        else
          (populateMap join aliasName maxLevel fs (path ++ [key]) (level + 1)).map
            fun ms => ms ++ [aggregatorModule join aliasName (path ++ [key]) key (keys fs)] := by
  rw [populateEntry, findsUnsafeKey_eq_any fs h]
  split
  · rfl
  · cases populateMap join aliasName maxLevel fs (path ++ [key]) (level + 1) <;> rfl

/-- C6, the code's rule at its failing input.  In `{a: {"": 1, "b-c": 2}}` at `level = 2`
the key `b-c` of the value of `a` is not identifier-safe, yet `find` of line 127 returns
the empty key, which is falsy, and `a` is materialised as an aggregator with the children
`a/` and `a/b-c`. -/
theorem createTemplates_empty_key_aggregates (join : String → String → String) :
    NON_ALPHANUMERIC_RE "b-c" = false
    ∧ findsUnsafeKey [("", Val.num 1), ("b-c", Val.num 2)] = false
    ∧ (createTemplates join "#tailwind-config" 2
        [("a", Val.obj [("", Val.num 1), ("b-c", Val.num 2)])]).map
      (fun ms => ms.map fun m => (m.kind, m.filename))
    = some
      [(Kind.leafLiteral, "tailwind.config/a/.mjs"),
       (Kind.leafLiteral, "tailwind.config/a/b-c.mjs"),
       (Kind.aggregator, "tailwind.config/a.mjs"),
       (Kind.root, "tailwind.config/index.mjs")] :=
  ⟨by decide, by decide, rfl⟩

/-- C7, the code at its failing input.  A key whose value is `null` makes
`createTemplates` throw at every level: `null` passes `isJSObject` and `Object.keys(null)`
is a `TypeError`, so no module is emitted for the key. -/
theorem createTemplates_null_throws (join : String → String → String) (aliasName : String)
    (maxLevel : Nat) :
    (∀ key path level, populateEntry join aliasName maxLevel Val.null key path level = none)
    ∧ createTemplates join aliasName maxLevel [("a", Val.null)] = none
    ∧ createTemplates join aliasName 3
        [("theme", Val.obj [("screens", Val.null)])] = none :=
  ⟨fun _ _ _ => rfl, rfl, rfl⟩

/-- C8, the code at its failing input.  The top-level key `my-key` is not identifier-safe,
yet the root module binds it as an import alias and as a named export. -/
theorem createTemplates_root_binds_unsafe_key (join : String → String → String) :
    NON_ALPHANUMERIC_RE "my-key" = false
    ∧ (createTemplates join "#tailwind-config" 2 [("my-key", Val.num 1)]).map
      (fun ms => ms.map fun m => (m.kind, m.contents))
    = some
      [(Kind.leafLiteral, "export default 1"),
       (Kind.root,
        "import my-key from \"#build/tailwind.config/my-key.mjs\"\nconst config = \x7b my-key \x7d\nexport \x7b config as default, my-key \x7d")] :=
  ⟨by decide, rfl⟩

/-- C9, refuted as stated: the module of a top-level key `index` has the file name of the
root module, and the module of a top-level key `a/b` has the file name of the module of the
child `b` of `a`. -/
theorem createTemplates_index_collides :
    (createTemplates posixJoin "#tailwind-config" 2 [("index", Val.num 1)]).map
      (fun ms => ms.map fun m => m.filename)
    = some ["tailwind.config/index.mjs", "tailwind.config/index.mjs"]
    ∧ ¬ (["tailwind.config/index.mjs", "tailwind.config/index.mjs"] : List String).Nodup
    ∧ (createTemplates posixJoin "#tailwind-config" 2
        [("a", Val.obj [("b", Val.num 1)]), ("a/b", Val.num 2)]).map
      (fun ms => ms.map fun m => m.filename)
    = some ["tailwind.config/a/b.mjs", "tailwind.config/a.mjs", "tailwind.config/a/b.mjs",
            "tailwind.config/index.mjs"]
    ∧ ¬ (["tailwind.config/a/b.mjs", "tailwind.config/a.mjs", "tailwind.config/a/b.mjs",
          "tailwind.config/index.mjs"] : List String).Nodup :=
  ⟨rfl, by decide, rfl, by decide⟩

/-- C10, the code at its failing input.  In `{a: {b: {c: 1}}}` at `level = 3` the child of
the aggregator `a/b` is declared as `#tailwind-config/a/b/c`, yet the aggregator types
`_c` by `import("#tailwind-config/b/a/c")`: line 157 joins `key/subpath` with `../v`. -/
theorem createTemplates_nested_aggregator_declaration :
    (createTemplates posixJoin "#tailwind-config" 3
        [("a", Val.obj [("b", Val.obj [("c", Val.num 1)])])]).map
      (fun ms => ms.map fun m => (m.kind, m.declaration))
    = some
      [(Kind.leafLiteral,
        "declare module \"#tailwind-config/a/b/c\" \x7b const defaultExport: 1; export default defaultExport; \x7d"),
       (Kind.aggregator,
        "declare module \"#tailwind-config/a/b\" \x7b export const _c: typeof import(\"#tailwind-config/b/a/c\")[\"default\"]; const defaultExport: \x7b \"c\": typeof _c \x7d; export default defaultExport; \x7d"),
       (Kind.aggregator,
        "declare module \"#tailwind-config/a\" \x7b export const _b: typeof import(\"#tailwind-config/a/b\")[\"default\"]; const defaultExport: \x7b \"b\": typeof _b \x7d; export default defaultExport; \x7d"),
       (Kind.root,
        "declare module \"#tailwind-config\" \x7b export const a: typeof import(\"#tailwind-config/a\")[\"default\"]; const defaultExport: \x7b \"a\": typeof a \x7d; export default defaultExport; \x7d")] := by
  rfl

/-! ## Module addresses -/

theorem slash_is_slash : ((Char.ofNat 47).toNat != 47) = false := by decide

theorem slash_split (a b x y : List Char) (ha : a.all (fun c => c.toNat != 47) = true)
    (hb : b.all (fun c => c.toNat != 47) = true)
    (h : a ++ Char.ofNat 47 :: x = b ++ Char.ofNat 47 :: y) : a = b ∧ x = y := by
  induction a generalizing b with
  | nil =>
    cases b with
    | nil => simpa using h
    | cons d b =>
      simp only [List.nil_append, List.cons_append, List.cons.injEq] at h
      simp only [List.all_cons, Bool.and_eq_true] at hb
      have := hb.1
      rw [← h.1, slash_is_slash] at this
      exact Bool.noConfusion this
  | cons c a ih =>
    cases b with
    | nil =>
      simp only [List.nil_append, List.cons_append, List.cons.injEq] at h
      simp only [List.all_cons, Bool.and_eq_true] at ha
      have := ha.1
      rw [h.1, slash_is_slash] at this
      exact Bool.noConfusion this
    | cons d b =>
      simp only [List.cons_append, List.cons.injEq] at h
      simp only [List.all_cons, Bool.and_eq_true] at ha hb
      obtain ⟨h1, h2⟩ := ih b ha.2 hb.2 h.2
      exact ⟨by rw [h.1, h1], h2⟩

theorem slash_absent (a b y : List Char) (ha : a.all (fun c => c.toNat != 47) = true)
    (h : a = b ++ Char.ofNat 47 :: y) : False := by
  subst h
  simp only [List.all_append, List.all_cons, Bool.and_eq_true] at ha
  have := ha.2.1
  rw [slash_is_slash] at this
  exact Bool.noConfusion this

theorem joinWith_slash_cons (a b : String) (r : List String) :
    (joinWith "/" (a :: b :: r)).data = a.data ++ Char.ofNat 47 :: (joinWith "/" (b :: r)).data := by
  simp only [joinWith, String.data_append, List.append_assoc]
  rfl

/-- Joining by slashes loses nothing when no segment holds a slash. -/
theorem joinWith_slash_injective (p : List String) :
    ∀ q : List String, p ≠ [] → q ≠ [] → (∀ s ∈ p, noSlash s = true) →
      (∀ s ∈ q, noSlash s = true) → joinWith "/" p = joinWith "/" q → p = q := by
  induction p with
  | nil => intro q hp; exact absurd rfl hp
  | cons a p ih =>
    intro q _ hq hps hqs h
    have ha : noSlash a = true := hps a (List.mem_cons_self a p)
    cases q with
    | nil => exact absurd rfl hq
    | cons b q =>
      have hb : noSlash b = true := hqs b (List.mem_cons_self b q)
      have hd := congrArg String.data h
      cases p with
      | nil =>
        cases q with
        | nil =>
          simp only [joinWith] at h
          rw [h]
        | cons b2 q2 =>
          rw [joinWith_slash_cons] at hd
          exact (slash_absent _ _ _ ha hd).elim
      | cons a2 p2 =>
        cases q with
        | nil =>
          rw [joinWith_slash_cons] at hd
          exact (slash_absent _ _ _ hb hd.symm).elim
        | cons b2 q2 =>
          rw [joinWith_slash_cons, joinWith_slash_cons] at hd
          obtain ⟨h1, h2⟩ := slash_split _ _ _ _ ha hb hd
          have h3 := ih (b2 :: q2) (List.cons_ne_nil _ _) (List.cons_ne_nil _ _)
            (fun s hs => hps s (List.mem_cons_of_mem a hs))
            (fun s hs => hqs s (List.mem_cons_of_mem b hs)) (String.ext h2)
          rw [String.ext h1, h3]

theorem fileOf_injective (p q : List String) (hp : p ≠ []) (hq : q ≠ [])
    (hps : ∀ s ∈ p, noSlash s = true) (hqs : ∀ s ∈ q, noSlash s = true)
    (h : fileOf p = fileOf q) : p = q := by
  have hd := congrArg String.data h
  simp only [fileOf, String.data_append] at hd
  have h1 := List.append_cancel_right hd
  have h2 := List.append_cancel_left h1
  exact joinWith_slash_injective p q hp hq hps hqs (String.ext h2)

theorem not_mem_keys_of_lacks (rest : Obj) (key : String) (h : lacks rest key = true) :
    key ∉ keys rest := by
  induction rest with
  | nil => simp [keys]
  | cons e t ih =>
    obtain ⟨k1, v1⟩ := e
    by_cases h1 : k1 = key
    · simp [lacks, getProp, h1] at h
    · have h2 : lacks t key = true := by simpa [lacks, getProp, h1] using h
      have h3 := ih h2
      simp only [keys, List.map_cons, List.mem_cons, not_or] at h3 ⊢
      exact ⟨fun h => h1 h.symm, h3⟩

theorem noSlash_of_alphanumeric (k : String) (h : NON_ALPHANUMERIC_RE k = true) :
    noSlash k = true := by
  simp only [NON_ALPHANUMERIC_RE, Bool.and_eq_true, List.all_eq_true] at h
  simp only [noSlash, List.all_eq_true]
  intro c hc
  have hal := h.2 c hc
  simp only [bne_iff_ne, ne_eq]
  intro h47
  have hc47 : c = Char.ofNat 47 := by rw [← h47, Char.ofNat_toNat]
  rw [hc47] at hal
  revert hal
  decide

theorem all_noSlash_of_identifier_keys (ks : List String)
    (h : (ks.any fun k => !NON_ALPHANUMERIC_RE k) = false) : ks.all noSlash = true := by
  rw [List.all_eq_true]
  intro k hk
  apply noSlash_of_alphanumeric
  cases hre : NON_ALPHANUMERIC_RE k with
  | true => rfl
  | false =>
    have : (ks.any fun k => !NON_ALPHANUMERIC_RE k) = true :=
      List.any_eq_true.mpr ⟨k, hk, by simp [hre]⟩
    rw [h] at this
    exact Bool.noConfusion this

/-- The modules `populateMap` emits sit at pairwise distinct key paths below `path`, each
named after its path. -/
theorem populateMap_addresses (join : String → String → String) (aliasName : String)
    (maxLevel : Nat) (fs : Obj) (path : List String) (level : Nat) :
    ∀ ms, populateMap join aliasName maxLevel fs path level = some ms →
      distinctKeys fs = true → (keys fs).all noSlash = true → findReadsTrueFields fs = true →
      MapAddresses path (keys fs) ms := by
  induction fs, path, level using populateMap.induct join aliasName maxLevel
    (motive_2 := fun value key path level =>
      ∀ ms, populateEntry join aliasName maxLevel value key path level = some ms →
        distinctVal value = true → findReadsTrueVal value = true →
        EntryAddresses path key ms) with
  | case1 fs key path level hleaf =>
    rename_i ms h _ _
    simp only [populateEntry, hleaf, if_true, Option.some.injEq] at h
    subst h
    refine ⟨?_, by simp⟩
    intro m hm
    rw [List.mem_singleton] at hm
    subst hm
    exact ⟨[], rfl, by simp, rfl⟩
  | case2 fs key path level hagg hnone _ =>
    rename_i ms h _ _
    simp only [populateEntry, hagg, if_false, hnone] at h
    exact Option.noConfusion h
  | case3 fs key path level hagg more hmore ih =>
    rename_i ms h hd hs
    simp only [populateEntry, hagg, if_false, hmore, Option.some.injEq] at h
    subst h
    simp only [distinctVal, findReadsTrueVal, Bool.and_eq_true, beq_iff_eq] at hd hs
    have hfind : findsUnsafeKey fs = false := by
      cases hf : findsUnsafeKey fs with
      | false => rfl
      | true => exact (hagg (Or.inr hf)).elim
    have hnone : ((keys fs).any fun k => !NON_ALPHANUMERIC_RE k) = false := by
      rw [← hs.1, hfind]
    obtain ⟨hmem, hnd⟩ := ih more hmore hd (all_noSlash_of_identifier_keys (keys fs) hnone) hs.2
    refine ⟨?_, ?_⟩
    · intro m hm
      rcases List.mem_append.mp hm with hm | hm
      · obtain ⟨k, rest, _, hp, hsl, hf⟩ := hmem m hm
        exact ⟨k :: rest, by rw [hp, List.append_assoc]; rfl, hsl, hf⟩
      · rw [List.mem_singleton] at hm
        subst hm
        exact ⟨[], rfl, by simp, rfl⟩
    · rw [List.map_append, List.nodup_append]
      refine ⟨hnd, by simp, ?_⟩
      intro p hp1 hp2
      simp only [List.map_cons, List.map_nil, List.mem_singleton] at hp2
      obtain ⟨m, hm, hmp⟩ := List.mem_map.mp hp1
      obtain ⟨k, rest, _, hp, _, _⟩ := hmem m hm
      rw [← hmp, hp, List.append_assoc] at hp2
      have := List.append_cancel_left hp2
      simp [aggregatorModule] at this
  | case4 key path level =>
    rename_i ms h _ _
    simp only [populateEntry] at h
    exact Option.noConfusion h
  | case5 value key path level hnobj hnnull =>
    rename_i ms h _ _
    have hlit : populateEntry join aliasName maxLevel value key path level
        = some [leafLiteralModule aliasName (path ++ [key]) value] := by
      cases value with
      | obj fs => exact (hnobj fs rfl).elim
      | null => exact (hnnull rfl).elim
      | _ => rfl
    rw [hlit, Option.some.injEq] at h
    subst h
    refine ⟨?_, by simp⟩
    intro m hm
    rw [List.mem_singleton] at hm
    subst hm
    exact ⟨[], rfl, by simp, rfl⟩
  | case6 path level =>
    intro ms h _ _ _
    simp only [populateMap, Option.some.injEq] at h
    subst h
    exact ⟨by simp, by simp⟩
  | case7 key value rest path level hnone _ =>
    intro ms h _ _ _
    simp only [populateMap, hnone] at h
    exact Option.noConfusion h
  | case8 key value rest path level more hsome hnone _ _ =>
    intro ms h _ _ _
    simp only [populateMap, hsome, hnone] at h
    exact Option.noConfusion h
  | case9 key value rest path level more1 hsome more2 hrest ih2 ih1 =>
    intro ms h hd hs hf
    simp only [populateMap, hsome, hrest, Option.some.injEq] at h
    subst h
    simp only [distinctKeys, findReadsTrueFields, Bool.and_eq_true] at hd hf
    simp only [keys, List.map_cons, List.all_cons, Bool.and_eq_true] at hs
    obtain ⟨hmem1, hnd1⟩ := ih2 more1 hsome hd.1.2 hf.1
    obtain ⟨hmem2, hnd2⟩ := ih1 more2 hrest hd.2 hs.2 hf.2
    have hkey : key ∉ keys rest := not_mem_keys_of_lacks rest key hd.1.1
    refine ⟨?_, ?_⟩
    · intro m hm
      rcases List.mem_append.mp hm with hm | hm
      · obtain ⟨r, hp, hsl, hf⟩ := hmem1 m hm
        refine ⟨key, r, by simp [keys], hp, ?_, hf⟩
        intro s hs2
        rcases List.mem_cons.mp hs2 with hs2 | hs2
        · rw [hs2]
          exact hs.1
        · exact hsl s hs2
      · obtain ⟨k, r, hk, hp, hsl, hf⟩ := hmem2 m hm
        exact ⟨k, r, by simp only [keys, List.map_cons, List.mem_cons]; exact Or.inr hk, hp, hsl, hf⟩
    · rw [List.map_append, List.nodup_append]
      refine ⟨hnd1, hnd2, ?_⟩
      intro p hp1 hp2
      obtain ⟨m1, hm1, hmp1⟩ := List.mem_map.mp hp1
      obtain ⟨m2, hm2, hmp2⟩ := List.mem_map.mp hp2
      obtain ⟨r1, hq1, _, _⟩ := hmem1 m1 hm1
      obtain ⟨k, r2, hk, hq2, _, _⟩ := hmem2 m2 hm2
      have heq : path ++ key :: r1 = path ++ k :: r2 := by
        rw [← hq1, ← hq2, hmp1, hmp2]
      have := List.append_cancel_left heq
      simp only [List.cons.injEq] at this
      rw [this.1] at hkey
      exact hkey hk

/-- C9, amended.  For a configuration tree whose objects have pairwise distinct keys, whose
top-level keys contain no slash and differ from `index`, and in which no object has the
empty string as its first key failing the identifier expression (the case line 127
misreads), the file names of the modules `createTemplates` emits, the root module included,
are pairwise distinct.  Keys below the top level may contain slashes. -/
theorem createTemplates_filenames_nodup (join : String → String → String) (aliasName : String)
    (maxLevel : Nat) (resolvedConfig : Obj) (ms : List ModuleRecord)
    (hd : distinctKeys resolvedConfig = true)
    (hs : (keys resolvedConfig).all noSlash = true)
    (hi : lacks resolvedConfig "index" = true)
    (hf : findReadsTrueFields resolvedConfig = true)
    (h : createTemplates join aliasName maxLevel resolvedConfig = some ms) :
    (ms.map fun m => m.filename).Nodup := by
  unfold createTemplates at h
  cases hpm : populateMap join aliasName maxLevel resolvedConfig [] 1 with
  | none =>
    rw [hpm] at h
    exact Option.noConfusion h
  | some pm =>
    rw [hpm] at h
    simp only [Option.some.injEq] at h
    subst h
    obtain ⟨hmem, hnd⟩ :=
      populateMap_addresses join aliasName maxLevel resolvedConfig [] 1 pm hpm hd hs hf
    have hfile : pm.map (fun m => m.filename) = (pm.map fun m => m.path).map fileOf := by
      rw [List.map_map]
      apply List.map_congr_left
      intro m hm
      obtain ⟨_, _, _, _, _, hf⟩ := hmem m hm
      exact hf
    have hpaths : ∀ p ∈ pm.map (fun m => m.path),
        p ≠ [] ∧ (∀ s ∈ p, noSlash s = true) ∧ ∃ k rest, k ∈ keys resolvedConfig ∧ p = k :: rest := by
      intro p hp
      obtain ⟨m, hm, hmp⟩ := List.mem_map.mp hp
      obtain ⟨k, rest, hk, hq, hsl, _⟩ := hmem m hm
      rw [List.nil_append] at hq
      rw [← hmp, hq]
      exact ⟨List.cons_ne_nil _ _, hsl, k, rest, hk, rfl⟩
    rw [List.map_append, List.nodup_append]
    refine ⟨?_, by simp, ?_⟩
    · rw [hfile]
      apply List.Nodup.map_on _ hnd
      intro p hp q hq hpq
      exact fileOf_injective p q (hpaths p hp).1 (hpaths q hq).1 (hpaths p hp).2.1
        (hpaths q hq).2.1 hpq
    · intro f hf1 hf2
      simp only [List.map_cons, List.map_nil, List.mem_singleton] at hf2
      rw [hfile] at hf1
      obtain ⟨p, hp, hpf⟩ := List.mem_map.mp hf1
      obtain ⟨hne, hsl, k, rest, hk, hpk⟩ := hpaths p hp
      have hroot : fileOf p = fileOf ["index"] := by
        rw [hpf, hf2]
        rfl
      have := fileOf_injective p ["index"] hne (List.cons_ne_nil _ _) hsl (by decide) hroot
      rw [hpk, List.cons.injEq] at this
      rw [this.1] at hk
      exact not_mem_keys_of_lacks resolvedConfig "index" hi hk

theorem createTemplates_filenames_nodup_witness :
    (((createTemplates posixJoin "#tailwind-config" 3 sampleConfig).getD []).map
        fun m => m.filename)
      = ["tailwind.config/content.mjs", "tailwind.config/theme/width.mjs",
         "tailwind.config/theme/colors/red.mjs", "tailwind.config/theme/colors.mjs",
         "tailwind.config/theme.mjs", "tailwind.config/plugins.mjs",
         "tailwind.config/index.mjs"]
    ∧ (((createTemplates posixJoin "#tailwind-config" 3 sampleConfig).getD []).map
        fun m => m.filename).Nodup :=
  ⟨rfl, createTemplates_filenames_nodup posixJoin "#tailwind-config" 3 sampleConfig _
    (by decide) (by decide) (by decide) (by decide) rfl⟩

/-! ## Layered path order -/

theorem foldl_unshiftLayer {Layer : Type} (configPathsOf contentPathsOf : Layer → List String)
    (es : List Layer) :
    ∀ mainPaths : List String × List String,
      (es.map fun layer => (configPathsOf layer, contentPathsOf layer)).foldl
          unshiftLayer mainPaths
        = ((es.map configPathsOf).reverse.flatten ++ mainPaths.1,
           (es.map contentPathsOf).reverse.flatten ++ mainPaths.2) := by
  induction es with
  | nil => intro mainPaths; rfl
  | cons e es ih =>
    intro mainPaths
    simp only [List.map_cons, List.foldl_cons, ih, unshiftLayer, unshift, List.reverse_cons,
      List.flatten_append, List.flatten_cons, List.flatten_nil, List.append_nil,
      List.append_assoc]

/-- C11. For the primary layer's lists `M` and the extension layers `E1, ..., En` in layer
order (the layers after the first of `_layers`), `resolveModulePaths` returns
`En ++ ... ++ E1 ++ M`, for the configuration paths and for the content globs alike: two
extension layers give `E2 ++ E1 ++ M`, and around any extension layer the entries of the
later layers come first, then its own entries in their order, then the entries of the
earlier layers, then the primary layer's. -/
theorem resolveModulePaths_layer_order {Layer : Type}
    (configPathsOf contentPathsOf : Layer → List String)
    (mainPaths : List String × List String) (primary : Layer) :
    (∀ es : List Layer,
      resolveModulePaths configPathsOf contentPathsOf mainPaths (some (primary :: es))
        = ((es.map configPathsOf).reverse.flatten ++ mainPaths.1,
           (es.map contentPathsOf).reverse.flatten ++ mainPaths.2))
    ∧ (∀ e1 e2 : Layer,
      resolveModulePaths configPathsOf contentPathsOf mainPaths (some [primary, e1, e2])
        = (configPathsOf e2 ++ (configPathsOf e1 ++ mainPaths.1),
           contentPathsOf e2 ++ (contentPathsOf e1 ++ mainPaths.2)))
    ∧ (∀ (earlier later : List Layer) (e : Layer),
      resolveModulePaths configPathsOf contentPathsOf mainPaths
          (some (primary :: (earlier ++ e :: later)))
        = ((later.map configPathsOf).reverse.flatten ++ (configPathsOf e
              ++ ((earlier.map configPathsOf).reverse.flatten ++ mainPaths.1)),
           (later.map contentPathsOf).reverse.flatten ++ (contentPathsOf e
              ++ ((earlier.map contentPathsOf).reverse.flatten ++ mainPaths.2))))
    ∧ resolveModulePaths configPathsOf contentPathsOf mainPaths (some [primary]) = mainPaths
    ∧ resolveModulePaths configPathsOf contentPathsOf mainPaths (some []) = mainPaths
    ∧ resolveModulePaths configPathsOf contentPathsOf mainPaths none = mainPaths := by
  have hall : ∀ es : List Layer,
      resolveModulePaths configPathsOf contentPathsOf mainPaths (some (primary :: es))
        = ((es.map configPathsOf).reverse.flatten ++ mainPaths.1,
           (es.map contentPathsOf).reverse.flatten ++ mainPaths.2) := by
    intro es
    cases es with
    | nil => rfl
    | cons e es =>
      simp only [resolveModulePaths, List.length_cons, List.drop_succ_cons, List.drop_zero]
      rw [if_pos (by omega)]
      exact foldl_unshiftLayer configPathsOf contentPathsOf (e :: es) mainPaths
  refine ⟨hall, ?_, ?_, rfl, rfl, rfl⟩
  · intro e1 e2
    rw [hall]
    simp
  · intro earlier later e
    rw [hall]
    simp

end TailwindModule
